import Mathlib

/-!
Verification of the daily-focus scheduler (`src/tools/planning_tools.py`) and the
linkage store (`src/store.py`).

Shallow embedding conventions:
* All clock values are integer minutes since midnight of the planning day
  (`datetime` values in the source all live on one calendar day; the configured
  boundaries are whole minutes, so `int((b - a).total_seconds() // 60) = b - a`).
* The external calendar (`CAL.get_busy`, `CAL.create_event`) is modelled by an
  input busy list and a counter of created events; event ids are the counter
  values (stringified where the source stringifies them).
* The SQLite mapping table of `TinyStore` is modelled as a function from
  `thread_id` to an optional row; the `created_at` timestamp column plays no
  role in any claim and is omitted.
* `STORE.upsert_mapping` calls made by the scheduler are routed through an
  explicit effect parameter of type `UpsertEff`, so that a raising store
  (caught by `except Exception: pass` in the source) can be modelled.
-/

namespace DailyFocus

/-- Workday start, 08:00, from `config.WORKDAY_START` (minutes). -/
def WORKDAY_START : Int := 8 * 60

/-- Workday end, 19:00, from `config.WORKDAY_END` (minutes). -/
def WORKDAY_END : Int := 19 * 60

/-- Lunch start, 13:00, from `config.WORKDAY_LUNCH[0]` (minutes). -/
def lunch_start : Int := 13 * 60

/-- Lunch end, 14:00, from `config.WORKDAY_LUNCH[1]` (minutes). -/
def lunch_end : Int := 14 * 60

/-- Buffer after each block, from `config.BUFFER_MIN`. -/
def BUFFER_MIN : Int := 10

/-- Daily block quota, from `config.MAX_BLOCKS`. -/
def MAX_BLOCKS : Int := 5

/-- Morning deep-work quota, from `config.MAX_DEEP_MORNING`. -/
def MAX_DEEP_MORNING : Int := 3

/-- Noon, the `time(12, 0)` literal used by the deep-work quota guard. -/
def noon : Int := 12 * 60

/-- Two half-open intervals `[a.1, a.2)` and `[b.1, b.2)` share a point. -/
def overlaps (a b : Int × Int) : Prop := max a.1 b.1 < min a.2 b.2

instance (a b : Int × Int) : Decidable (overlaps a b) := by
  unfold overlaps; infer_instance

/-! ### Free-segment generator

Translation of the inner generator of `schedule_blocks`:

```
def free_segments(start, end, busy_list):
    bsorted = sorted(busy_list, key=lambda x: x[0])
    cur = start
    for b in bsorted:
        if b[0] > cur:
            yield (cur, min(b[0], end))
        cur = max(cur, b[1])
        if cur >= end:
            break
    if cur < end:
        yield (cur, end)
```

`sweep` is the loop over the already-sorted list (after a `break`, the final
`if cur < end` test is necessarily false, so the early exit returns just the
segments emitted so far); `free_segments` composes it with the stable
sort-by-start (`sorted(..., key=lambda x: x[0])`, modelled by the stable
`List.insertionSort` on the same key). -/

def sweep (stop : Int) : Int → List (Int × Int) → List (Int × Int)
  | cur, [] => if cur < stop then [(cur, stop)] else []
  | cur, b :: rest =>
    let emitted := if b.1 > cur then [(cur, min b.1 stop)] else []
    let cur2 := max cur b.2
    if stop ≤ cur2 then emitted else emitted ++ sweep stop cur2 rest

def free_segments (start stop : Int) (busy_list : List (Int × Int)) : List (Int × Int) :=
  sweep stop start (List.insertionSort (fun a b => a.1 ≤ b.1) busy_list)

instance : IsTrans (Int × Int) (fun a b => a.1 ≤ b.1) := ⟨fun _ _ _ h h2 => le_trans h h2⟩

instance : IsTotal (Int × Int) (fun a b => a.1 ≤ b.1) := ⟨fun a b => le_total a.1 b.1⟩

/-! ### Tasks and normalization

`schedule_blocks` first normalizes its `mits` argument: items whose stripped
title is empty are dropped, minutes default to 60 when missing or
unconvertible (`except` branch) and are clamped into `[10, 120]`; the optional
`thread_id` and `notion_block_id` fields are carried through. -/

/-- Python `str.strip()` on the underlying character list. -/
def py_strip (s : String) : String :=
  ⟨((s.data.dropWhile Char.isWhitespace).reverse.dropWhile Char.isWhitespace).reverse⟩

/-- One raw `mits` item: `{"text": ..., "minutes": ..., "thread_id": ...,
"notion_block_id": ...}`. `minutes = none` models a missing or unconvertible
minutes value (the source then uses 60). -/
structure RawMit where
  text : String
  minutes : Option Int
  thread_id : Option String
  notion_block_id : Option String
deriving Repr, DecidableEq

/-- A normalized task as built by the loop at the top of `schedule_blocks`. -/
structure Mit where
  text : String
  minutes : Int
  thread_id : Option String
  notion_block_id : Option String
deriving Repr, DecidableEq

def normalize (mits : List RawMit) : List Mit :=
  mits.filterMap fun m =>
    let title := py_strip m.text
    if title = "" then none
    else
      let dur := m.minutes.getD 60
      some ⟨title, max 10 (min 120 dur), m.thread_id, m.notion_block_id⟩

/-- A created calendar block (one element of the JSON array `schedule_blocks`
returns); the source field `end` is written `«end»`. -/
structure Block where
  calendar_event_id : Nat
  title : String
  start : Int
  «end» : Int
deriving Repr, DecidableEq

/-- Interval of a block together with its trailing buffer. -/
def blockExt (b : Block) : Int × Int := (b.start, b.«end» + BUFFER_MIN)

/-- Busy intervals contributed by a list of created blocks: for each block its
interval and its trailing buffer, in creation order (`created_busy`). -/
def blocks_busy (l : List Block) : List (Int × Int) :=
  l.flatMap fun b => [(b.start, b.«end»), (b.«end», b.«end» + BUFFER_MIN)]

/-! ### Linkage store (`src/store.py`) -/

/-- One row of the `mappings` table (minus the timestamp column). -/
structure MappingRow where
  notion_block_id : Option String
  calendar_event_id : Option String
deriving Repr, DecidableEq

/-- The mapping table, keyed by `thread_id`. -/
def StoreState := String → Option MappingRow

/-- Python truthiness of an optional string (`None` and `""` are falsy). -/
def truthy : Option String → Bool
  | some s => s ≠ ""
  | none => false

/-- Python `a or b` on optional strings, as used in `upsert_mapping`. -/
def pyOr (a b : Option String) : Option String := if truthy a then a else b

/-- Translation of `TinyStore.upsert_mapping`: insert the row as given when the key is absent,
otherwise keep each stored field unless the supplied value is truthy. -/
def upsert_mapping (st : StoreState) (thread_id : String)
    (notion_block_id calendar_event_id : Option String) : StoreState :=
  fun k =>
    if k = thread_id then
      match st thread_id with
      | some row =>
          some ⟨pyOr notion_block_id row.notion_block_id,
                pyOr calendar_event_id row.calendar_event_id⟩
      | none => some ⟨notion_block_id, calendar_event_id⟩
    else st k

/-- Translation of `TinyStore.get_mapping`: a missing row reads as two `None` fields. -/
def get_mapping (st : StoreState) (thread_id : String) : MappingRow :=
  (st thread_id).getD ⟨none, none⟩

/-- Translation of `TinyStore.set_calendar_event`, a convenience wrapper. -/
def set_calendar_event (st : StoreState) (thread_id : String)
    (calendar_event_id : String) : StoreState :=
  upsert_mapping st thread_id none (some calendar_event_id)

/-- Replay a sequence of `upsert_mapping` calls (pairs of supplied field
values) against one `thread_id`. -/
def apply_calls (st : StoreState) (thread_id : String)
    (calls : List (Option String × Option String)) : StoreState :=
  calls.foldl (fun s c => upsert_mapping s thread_id c.1 c.2) st

/-- Effect signature of the scheduler's `STORE.upsert_mapping(thread_id=...,
calendar_event_id=...)` call site; `Except.error` models a raised exception. -/
def UpsertEff : Type :=
  StoreState → String → Option String → Option String → Except Unit StoreState

/-- The non-raising store effect: a plain `upsert_mapping`. -/
def store_ok : UpsertEff :=
  fun st tid nb ce => Except.ok (upsert_mapping st tid nb ce)

/-- A store effect that always raises, as in a failing SQLite backend. -/
def store_fail : UpsertEff := fun _ _ _ _ => Except.error ()

/-! ### Placement engine (`schedule_blocks`) -/

/-- Mutable locals of one `schedule_blocks` run. -/
structure PlanState where
  created : List Block
  created_busy : List (Int × Int)
  blocks_left : Int
  deep_morning_left : Int
  cursor : Int
  store : StoreState
  next_event_id : Nat

/-- Slot search inside one free segment: the body of the
`for (fs, fe) in free_segments(...)` loop of `schedule_blocks`, lines 240-259.
`none` means `continue` (segment rejected). -/
def find_slot (dur : Int) (seg : Int × Int) : Option (Int × Int) :=
  let fs := seg.1
  let fe := seg.2
  let segment_minutes := fe - fs
  if fs < lunch_end ∧ fe > lunch_start then
    let before_minutes := if fs < lunch_start then lunch_start - fs else 0
    if before_minutes ≥ dur + BUFFER_MIN then some (fs, fs + dur)
    else
      let fs2 := max fs lunch_end
      let after_minutes := fe - fs2
      if after_minutes < dur + BUFFER_MIN then none
      else some (fs2, fs2 + dur)
  else
    if segment_minutes < dur + BUFFER_MIN then none
    else some (fs, fs + dur)

/-- Quota guard of the placement loop: with a deep task, a cursor before noon
and an exhausted morning quota, the cursor jumps to 12:00. -/
def guard_cursor (cursor : Int) (deep_morning_left : Int) (dur : Int) : Int :=
  if 45 ≤ dur ∧ cursor < noon ∧ deep_morning_left ≤ 0 then noon else cursor

/-- The `STORE.upsert_mapping` call site inside `schedule_blocks`: only run for
a truthy `thread_id`, and guarded by `try/except: pass`, so a raising store
leaves the state unchanged. -/
def store_after (f : UpsertEff) (st : StoreState) (thread_id : Option String)
    (evt_id : Nat) : StoreState :=
  if truthy thread_id then
    match f st (thread_id.getD "") none (some (toString evt_id)) with
    | Except.ok s1 => s1
    | Except.error _ => st
  else st

/-- Processing of one normalized MIT by the placement loop: quota guard on the
cursor, first accepted slot over the free segments, event creation, state
linkage, busy-set and quota updates. -/
def place_one (f : UpsertEff) (busy : List (Int × Int)) (st : PlanState)
    (mit : Mit) : PlanState :=
  let dur := mit.minutes
  let cursor := guard_cursor st.cursor st.deep_morning_left dur
  let cur_busy := busy ++ st.created_busy
  match (free_segments cursor WORKDAY_END cur_busy).findSome? (find_slot dur) with
  | none => { st with cursor := cursor }
  | some slot =>
      let evt_id := st.next_event_id
      let record : Block := ⟨evt_id, mit.text, slot.1, slot.2⟩
      { created := st.created ++ [record]
        created_busy := st.created_busy ++ [(slot.1, slot.2), (slot.2, slot.2 + BUFFER_MIN)]
        blocks_left := st.blocks_left - 1
        deep_morning_left :=
          st.deep_morning_left - (if 45 ≤ dur ∧ slot.1 < noon then 1 else 0)
        cursor := slot.2 + BUFFER_MIN
        store := store_after f st.store mit.thread_id evt_id
        next_event_id := evt_id + 1 }

/-- The placement loop over the normalized MITs; `blocks_left ≤ 0` breaks. -/
def place_all (f : UpsertEff) (busy : List (Int × Int)) :
    PlanState → List Mit → PlanState
  | st, [] => st
  | st, mit :: rest =>
      if st.blocks_left ≤ 0 then st
      else place_all f busy (place_one f busy st mit) rest

/-- Triage fallback: when nothing was scheduled, place one fixed 30-minute
block in the first free segment of length at least 30 minutes. -/
def triage (busy : List (Int × Int)) (st : PlanState) : PlanState :=
  let cur_busy := busy ++ st.created_busy
  match (free_segments st.cursor WORKDAY_END cur_busy).find?
      (fun s => decide (30 ≤ s.2 - s.1)) with
  | some seg =>
      { st with
        created := st.created ++ [⟨st.next_event_id, "Triage (30m)", seg.1, seg.1 + 30⟩]
        next_event_id := st.next_event_id + 1 }
  | none => st

/-- Initial state of a run: empty outputs, full quotas, cursor at
`max(now, day_start)`, external store state, event counter at zero. -/
def init_state (now : Int) (store0 : StoreState) : PlanState :=
  ⟨[], [], MAX_BLOCKS, MAX_DEEP_MORNING, max now WORKDAY_START, store0, 0⟩

/-- The run's busy set: calendar busy intervals plus the lunch interval. -/
def full_busy (cal_busy : List (Int × Int)) : List (Int × Int) :=
  cal_busy ++ [(lunch_start, lunch_end)]

/-- Whole `schedule_blocks` tool run. `cal_busy` is `CAL.get_busy(today)`,
`now` is `datetime.now(TZ)` in minutes, `store0` the persistent store. With no
normalized task the source returns `"[]"` immediately (modelled by the
untouched initial state); otherwise the placement loop runs and, if it created
nothing, the triage fallback. -/
def schedule_blocks (f : UpsertEff) (mits : List RawMit)
    (cal_busy : List (Int × Int)) (now : Int) (store0 : StoreState) : PlanState :=
  let normalized := normalize mits
  if normalized = [] then init_state now store0
  else
    let st1 := place_all f (full_busy cal_busy) (init_state now store0) normalized
    if st1.created = [] then triage (full_busy cal_busy) st1 else st1

/-- Ascending chain of intervals: each segment ends before the next begins. -/
def ascending (l : List (Int × Int)) : Prop :=
  List.Chain' (fun a b : Int × Int => a.2 ≤ b.1) l

/-- A deep-work block placed in the morning (duration at least 45 minutes and
start before noon) — the blocks counted by the morning quota. -/
def deep_morning (b : Block) : Bool :=
  decide (45 ≤ b.«end» - b.start) && decide (b.start < noon)

/-- Run invariant of the placement loop, relative to the fixed busy set and the
initial cursor `c0 = max(now, workdayStart)`. -/
structure Inv (busy : List (Int × Int)) (c0 : Int) (st : PlanState) : Prop where
  busy_eq : st.created_busy = blocks_busy st.created
  avoid : ∀ blk ∈ st.created, ∀ b ∈ busy, ¬ overlaps (blockExt blk) b
  pair : List.Pairwise (fun a b => ¬ overlaps (blockExt a) (blockExt b)) st.created
  bounds : ∀ blk ∈ st.created, c0 ≤ blk.start ∧ blk.«end» + BUFFER_MIN ≤ WORKDAY_END
  cursor_ge : c0 ≤ st.cursor
  blocks_count : 0 ≤ st.blocks_left ∧
    (st.created.length : Int) = MAX_BLOCKS - st.blocks_left
  deep_count : 0 ≤ st.deep_morning_left ∧
    ((st.created.countP deep_morning : Int)) = MAX_DEEP_MORNING - st.deep_morning_left

/-- Equality of two run states on everything except the linkage store. -/
def same_out (st st2 : PlanState) : Prop :=
  st.created = st2.created ∧ st.created_busy = st2.created_busy ∧
  st.blocks_left = st2.blocks_left ∧ st.deep_morning_left = st2.deep_morning_left ∧
  st.cursor = st2.cursor ∧ st.next_event_id = st2.next_event_id

/-! ### Ranking tool (`prioritize_mits`)

The model call itself is external; `raw` stands for the response text
(`resp.content`) and `loads` for `json.loads` restricted to this run
(`loads s = none` models `json.loads` raising on `s`). -/

/-- JSON-decodable Python values. JSON numbers are modelled as integers; the
float case plays no role in any claim. -/
inductive PyVal where
  | none : PyVal
  | bool : Bool → PyVal
  | int : Int → PyVal
  | str : String → PyVal
  | list : List PyVal → PyVal
  | dict : List (String × PyVal) → PyVal

/-- Python `s.find(c)`: index of the first occurrence, `-1` when absent. -/
def find_idx : List Char → Char → Int
  | [], _ => -1
  | a :: rest, c =>
    if a = c then 0
    else
      let r := find_idx rest c
      if r = -1 then -1 else r + 1

/-- Python `s.rfind(c)`: index of the last occurrence, `-1` when absent. -/
def rfind_idx : List Char → Char → Int
  | [], _ => -1
  | a :: rest, c =>
    let r := rfind_idx rest c
    if r ≠ -1 then r + 1 else if a = c then 0 else -1

/-- Python slice `s[i : j]` on a character list, for the non-negative bounds
produced by `find`/`rfind` here. -/
def py_slice (s : List Char) (i j : Int) : List Char :=
  (s.drop i.toNat).take (j - i).toNat

/-- Translation of `_extract_json_array`: take the substring from the first `[` to the last
`]` and parse it; any failure (no such bracket pair, or `json.loads` raising)
yields the empty list. A successfully parsed value is returned as-is — the
source does not check that it actually is a list. -/
def extract_json_array (loads : List Char → Option PyVal) (s : List Char) : PyVal :=
  let start := find_idx s '['
  let stop := rfind_idx s ']'
  if start ≠ -1 ∧ stop ≠ -1 ∧ stop > start then
    match loads (py_slice s start (stop + 1)) with
    | some v => v
    | none => PyVal.list []
  else PyVal.list []

mutual

/-- Python `repr()` of a JSON value (string quoting without escaping, which no
claim depends on). -/
def py_repr : PyVal → String
  | PyVal.none => "None"
  | PyVal.bool true => "True"
  | PyVal.bool false => "False"
  | PyVal.int n => toString n
  | PyVal.str s => "\x27" ++ s ++ "\x27"
  | PyVal.list xs => "[" ++ py_repr_list xs ++ "]"
  | PyVal.dict kvs => "\x7b" ++ py_repr_dict kvs ++ "\x7d"

def py_repr_list : List PyVal → String
  | [] => ""
  | [x] => py_repr x
  | x :: xs => py_repr x ++ ", " ++ py_repr_list xs

def py_repr_dict : List (String × PyVal) → String
  | [] => ""
  | [(k, v)] => "\x27" ++ k ++ "\x27: " ++ py_repr v
  | (k, v) :: kvs => "\x27" ++ k ++ "\x27: " ++ py_repr v ++ ", " ++ py_repr_dict kvs

end

/-- Python `str()` of a JSON value: strings stay as-is, everything else uses
its `repr`. -/
def py_str : PyVal → String
  | PyVal.str s => s
  | v => py_repr v

/-- CPython `int(str)` for plain decimal literals: optional surrounding
whitespace, optional sign, then a nonempty digit run; anything else raises. -/
def py_int_of_string (s : String) : Option Int :=
  let t := py_strip s
  let neg := t.startsWith "-"
  let core := if neg ∨ t.startsWith "+" then t.drop 1 else t
  match core.toNat? with
  | some n => some (if neg then -(n : Int) else (n : Int))
  | Option.none => Option.none

/-- Python `int(x)` on a JSON value: ints and bools convert, decimal strings
parse, everything else raises (`none`). -/
def py_int : PyVal → Option Int
  | PyVal.int n => some n
  | PyVal.bool b => some (if b then 1 else 0)
  | PyVal.str s => py_int_of_string s
  | _ => Option.none

/-- Python `dict.get` on a parsed JSON object (later duplicate keys win, as
they do in `json.loads`). -/
def py_get (kvs : List (String × PyVal)) (k : String) (d : PyVal) : PyVal :=
  match kvs.reverse.find? (fun p => p.1 == k) with
  | some p => p.2
  | Option.none => d

/-- Python `for item in arr` over a JSON value: lists yield their elements,
objects their keys, strings their characters; numbers, booleans and `None`
raise `TypeError`. -/
def py_iter : PyVal → Except Unit (List PyVal)
  | PyVal.list xs => Except.ok xs
  | PyVal.dict kvs => Except.ok ((kvs.map Prod.fst).dedup.map PyVal.str)
  | PyVal.str s => Except.ok (s.data.map (fun c => PyVal.str (String.mk [c])))
  | _ => Except.error ()

/-- One input task of `prioritize_mits`, after the `str(it.get("text", ""))`
coercion; carries the optional passthrough ids. -/
structure InTask where
  text : String
  thread_id : Option String
  notion_block_id : Option String
deriving Repr, DecidableEq

/-- The `task_texts` hygiene pass: stripped texts, empties dropped. -/
def task_texts (tasks : List InTask) : List String :=
  tasks.filterMap fun it =>
    let t := py_strip it.text
    if t = "" then none else some t

/-- The `id_by_text` map: ids of the last input task whose stripped text is
`txt` (later assignments overwrite), `none` when the key is absent. -/
def lookup_ids (tasks : List InTask) (txt : String) :
    Option (Option String × Option String) :=
  match (tasks.filter fun it => py_strip it.text != "").reverse.find?
      (fun it => py_strip it.text == txt) with
  | some it => some (it.thread_id, it.notion_block_id)
  | Option.none => Option.none

/-- One cleaned output item of `prioritize_mits`. -/
structure CleanedTask where
  text : String
  minutes : Int
  thread_id : Option String
  notion_block_id : Option String
deriving Repr, DecidableEq

/-- The body of the cleaning loop for one parsed item: non-objects and empty
titles are skipped, minutes are converted (a failing conversion raises) and
clamped into `[10, 120]`, truthy passthrough ids are re-attached on exact text
match. -/
def clean_item (tasks : List InTask) (item : PyVal) :
    Except Unit (Option CleanedTask) :=
  match item with
  | PyVal.dict kvs =>
    let text := py_strip (py_str (py_get kvs "text" (PyVal.str "")))
    if text = "" then Except.ok Option.none
    else
      match py_int (py_get kvs "minutes" (PyVal.int 60)) with
      | Option.none => Except.error ()
      | some m =>
        let minutes := max 10 (min 120 m)
        match lookup_ids tasks text with
        | some p =>
          Except.ok (some ⟨text, minutes,
            if truthy p.1 then p.1 else Option.none,
            if truthy p.2 then p.2 else Option.none⟩)
        | Option.none => Except.ok (some ⟨text, minutes, Option.none, Option.none⟩)
  | _ => Except.ok Option.none

/-- The cleaning loop; an exception on any item aborts the whole loop
(caught by the surrounding `except`). -/
def clean_loop (tasks : List InTask) : List PyVal → Except Unit (List CleanedTask)
  | [] => Except.ok []
  | item :: rest =>
    match clean_item tasks item with
    | Except.error _ => Except.error ()
    | Except.ok Option.none => clean_loop tasks rest
    | Except.ok (some c) =>
      match clean_loop tasks rest with
      | Except.error _ => Except.error ()
      | Except.ok cs => Except.ok (c :: cs)

/-- The deterministic fallback of the `except` branch: the first up to 3 input
texts at 60 minutes, without ids. -/
def fallback_tasks (tasks : List InTask) : List CleanedTask :=
  ((task_texts tasks).take 3).map fun t => ⟨t, 60, Option.none, Option.none⟩

/-- Translation of `prioritize_mits` after the model call. With no usable input text the tool
returns `[]` before calling the model; otherwise the response is bracket-
extracted and parsed, the items are iterated and cleaned (an exception during
iteration or cleaning falls back to the first 3 tasks at 60 minutes), and at
most 5 items are returned. -/
def prioritize_mits (loads : List Char → Option PyVal) (tasks : List InTask)
    (raw : List Char) : List CleanedTask :=
  if task_texts tasks = [] then []
  else
    let arr := extract_json_array loads raw
    match (py_iter arr).bind (clean_loop tasks) with
    | Except.ok cleaned => if cleaned.length > 5 then cleaned.take 5 else cleaned
    | Except.error _ => fallback_tasks tasks

/-! ## Theorems -/

theorem overlaps_iff (a b : Int × Int) :
    overlaps a b ↔ ∃ t : Int, (a.1 ≤ t ∧ t < a.2) ∧ (b.1 ≤ t ∧ t < b.2) := by
  constructor
  · intro h
    exact ⟨max a.1 b.1, by unfold overlaps at h; omega, by unfold overlaps at h; omega⟩
  · rintro ⟨t, ⟨h1, h2⟩, h3, h4⟩
    unfold overlaps
    omega

theorem overlaps_comm (a b : Int × Int) : overlaps a b ↔ overlaps b a := by
  unfold overlaps; omega

theorem not_overlaps_of_subset {s b x : Int × Int} (h : ¬ overlaps s b)
    (h1 : s.1 ≤ x.1) (h2 : x.2 ≤ s.2) : ¬ overlaps x b := by
  intro hx
  rcases (overlaps_iff x b).mp hx with ⟨t, ⟨ht1, ht2⟩, ht3⟩
  exact h ((overlaps_iff s b).mpr ⟨t, ⟨by omega, by omega⟩, ht3⟩)

theorem not_overlaps_union {x : Int × Int} {p q r : Int}
    (h1 : ¬ overlaps x (p, q)) (h2 : ¬ overlaps x (q, r)) : ¬ overlaps x (p, r) := by
  intro hx
  rcases (overlaps_iff x (p, r)).mp hx with ⟨t, hta, htb⟩
  by_cases ht : t < q
  · exact h1 ((overlaps_iff x (p, q)).mpr ⟨t, hta, by simp at htb ⊢; omega⟩)
  · exact h2 ((overlaps_iff x (q, r)).mpr ⟨t, hta, by simp at htb ⊢; omega⟩)

theorem sweep_subset (stop : Int) (bs : List (Int × Int)) :
    ∀ cur : Int, ∀ s ∈ sweep stop cur bs, cur ≤ s.1 ∧ s.2 ≤ stop := by
  induction bs with
  | nil =>
    intro cur s hs
    simp only [sweep] at hs
    split at hs
    · simp only [List.mem_singleton] at hs
      subst hs; constructor <;> simp
    · simp at hs
  | cons b rest ih =>
    intro cur s hs
    simp only [sweep] at hs
    split at hs
    · split at hs
      · simp only [List.mem_singleton] at hs
        subst hs
        refine ⟨le_refl _, ?_⟩
        simp only [min_le_iff]; right; exact le_refl _
      · simp at hs
    · rw [List.mem_append] at hs
      rcases hs with hs | hs
      · split at hs
        · simp only [List.mem_singleton] at hs
          subst hs
          refine ⟨le_refl _, ?_⟩
          simp only [min_le_iff]; right; exact le_refl _
        · simp at hs
      · have := ih (max cur b.2) s hs
        constructor
        · exact le_trans (le_max_left _ _) this.1
        · exact this.2

theorem sweep_nonempty (stop : Int) (bs : List (Int × Int)) :
    ∀ cur : Int, cur < stop → ∀ s ∈ sweep stop cur bs, s.1 < s.2 := by
  induction bs with
  | nil =>
    intro cur hc s hs
    simp only [sweep, if_pos hc, List.mem_singleton] at hs
    subst hs; exact hc
  | cons b rest ih =>
    intro cur hc s hs
    simp only [sweep] at hs
    split at hs
    · split at hs
      · simp only [List.mem_singleton] at hs
        subst hs
        next h => simp only; omega
      · simp at hs
    · rw [List.mem_append] at hs
      rcases hs with hs | hs
      · split at hs
        · simp only [List.mem_singleton] at hs
          subst hs
          next h => simp only; omega
        · simp at hs
      · next h =>
        exact ih (max cur b.2) (by omega) s hs

theorem sweep_avoid (stop : Int) (bs : List (Int × Int)) :
    ∀ cur : Int, List.Pairwise (fun a b => a.1 ≤ b.1) bs →
      ∀ s ∈ sweep stop cur bs, ∀ b ∈ bs, ¬ overlaps s b := by
  induction bs with
  | nil => intro cur _ s _ b hb; simp at hb
  | cons b0 rest ih =>
    intro cur hp s hs b hb
    rw [List.pairwise_cons] at hp
    rw [List.mem_cons] at hb
    simp only [sweep] at hs
    have hemit : ∀ h : b0.1 > cur, s = (cur, min b0.1 stop) → ¬ overlaps s b := by
      intro _ hse
      subst hse
      rcases hb with hb | hb
      · subst hb; unfold overlaps; simp only; omega
      · have := hp.1 b hb
        unfold overlaps; simp only; omega
    split at hs
    · split at hs
      · simp only [List.mem_singleton] at hs
        next h => exact hemit h hs
      · simp at hs
    · rw [List.mem_append] at hs
      rcases hs with hs | hs
      · split at hs
        · simp only [List.mem_singleton] at hs
          next h => exact hemit h hs
        · simp at hs
      · have hsub := sweep_subset stop rest (max cur b0.2) s hs
        rcases hb with hb | hb
        · subst hb
          unfold overlaps
          omega
        · exact ih (max cur b0.2) hp.2 s hs b hb

theorem sweep_chain (stop : Int) (bs : List (Int × Int)) :
    ∀ cur : Int, (∀ b ∈ bs, b.1 ≤ b.2) →
      List.Chain' (fun a b : Int × Int => a.2 ≤ b.1) (sweep stop cur bs) := by
  induction bs with
  | nil =>
    intro cur _
    simp only [sweep]
    split <;> simp
  | cons b rest ih =>
    intro cur hwf
    have hb : b.1 ≤ b.2 := hwf b (by simp)
    have hrest : ∀ x ∈ rest, x.1 ≤ x.2 := fun x hx => hwf x (by simp [hx])
    simp only [sweep]
    split
    · split <;> simp
    · split
      · next hgt =>
        rw [List.singleton_append, List.chain'_cons']
        refine ⟨?_, ih (max cur b.2) hrest⟩
        intro y hy
        have hy' := List.mem_of_mem_head? hy
        have := sweep_subset stop rest (max cur b.2) y hy'
        simp only
        omega
      · simp only [List.nil_append]
        exact ih (max cur b.2) hrest

theorem sweep_cover (stop : Int) (bs : List (Int × Int)) :
    ∀ cur : Int, (∀ b ∈ bs, b.1 ≤ b.2) → List.Pairwise (fun a b => a.1 ≤ b.1) bs →
      ∀ t : Int, (∃ s ∈ sweep stop cur bs, s.1 ≤ t ∧ t < s.2) ↔
        (cur ≤ t ∧ t < stop ∧ ∀ b ∈ bs, ¬ (b.1 ≤ t ∧ t < b.2)) := by
  induction bs with
  | nil =>
    intro cur _ _ t
    simp only [sweep]
    split
    · simp only [List.mem_singleton, List.not_mem_nil, false_implies, implies_true, and_true]
      constructor
      · rintro ⟨s, hse, h1, h2⟩; subst hse; exact ⟨h1, h2⟩
      · rintro ⟨h1, h2⟩; exact ⟨(cur, stop), rfl, h1, h2⟩
    · simp only [List.not_mem_nil, false_and, exists_false, false_iff, not_and]
      intro h1 h2
      next hns => omega
  | cons b rest ih =>
    intro cur hwf hp t
    have hb : b.1 ≤ b.2 := hwf b (by simp)
    have hrest : ∀ x ∈ rest, x.1 ≤ x.2 := fun x hx => hwf x (by simp [hx])
    rw [List.pairwise_cons] at hp
    have hrec := ih (max cur b.2) hrest hp.2 t
    have hsort : ∀ x ∈ rest, b.1 ≤ x.1 := hp.1
    simp only [sweep]
    split
    · next hstop =>
      -- early break: cur2 = max cur b.2 ≥ stop
      split
      · next hgt =>
        simp only [List.mem_cons, List.not_mem_nil, or_false, forall_eq_or_imp]
        constructor
        · rintro ⟨s, hse, h1, h2⟩
          subst hse
          simp only at h1 h2
          refine ⟨h1, by omega, by omega, ?_⟩
          intro x hx
          have := hsort x hx
          omega
        · rintro ⟨h1, h2, h3, _⟩
          exact ⟨(cur, min b.1 stop), rfl, h1, by omega⟩
      · next hgt =>
        simp only [List.not_mem_nil, false_and, exists_false, false_iff,
          List.mem_cons, forall_eq_or_imp]
        rintro ⟨h1, h2, h3, _⟩
        omega
    · next hstop =>
      split
      · next hgt =>
        simp only [List.singleton_append, List.mem_cons, forall_eq_or_imp]
        constructor
        · rintro ⟨s, hse, h1, h2⟩
          rcases hse with hse | hse
          · subst hse
            simp only at h1 h2
            refine ⟨h1, by omega, by omega, ?_⟩
            intro x hx
            have := hsort x hx
            omega
          · have hr := hrec.mp ⟨s, hse, h1, h2⟩
            exact ⟨by omega, hr.2.1, by omega, hr.2.2⟩
        · rintro ⟨h1, h2, h3, h4⟩
          by_cases ht : t < b.1
          · exact ⟨(cur, min b.1 stop), Or.inl rfl, h1, by omega⟩
          · have hmax : max cur b.2 ≤ t := by omega
            rcases hrec.mpr ⟨hmax, h2, h4⟩ with ⟨s, hs1, hs2⟩
            exact ⟨s, Or.inr hs1, hs2⟩
      · next hgt =>
        simp only [List.nil_append]
        rw [hrec]
        simp only [List.mem_cons, forall_eq_or_imp]
        constructor
        · rintro ⟨h1, h2, h3⟩
          exact ⟨by omega, h2, by omega, h3⟩
        · rintro ⟨h1, h2, h3, h4⟩
          exact ⟨by omega, h2, h4⟩

theorem mem_sort_iff (busy : List (Int × Int)) (b : Int × Int) :
    b ∈ List.insertionSort (fun a b => a.1 ≤ b.1) busy ↔ b ∈ busy :=
  (List.perm_insertionSort _ _).mem_iff

theorem free_segments_subset (a z : Int) (busy : List (Int × Int)) :
    ∀ s ∈ free_segments a z busy, a ≤ s.1 ∧ s.2 ≤ z :=
  fun s hs => sweep_subset z _ a s hs

theorem free_segments_nonempty (a z : Int) (busy : List (Int × Int)) (h : a < z) :
    ∀ s ∈ free_segments a z busy, s.1 < s.2 :=
  fun s hs => sweep_nonempty z _ a h s hs

theorem free_segments_avoid (a z : Int) (busy : List (Int × Int)) :
    ∀ s ∈ free_segments a z busy, ∀ b ∈ busy, ¬ overlaps s b := by
  intro s hs b hb
  exact sweep_avoid z _ a (List.sorted_insertionSort _ busy) s hs b
    ((mem_sort_iff busy b).mpr hb)

theorem free_segments_chain (a z : Int) (busy : List (Int × Int))
    (hwf : ∀ b ∈ busy, b.1 ≤ b.2) : ascending (free_segments a z busy) := by
  unfold ascending free_segments
  exact sweep_chain z _ a (fun b hb => hwf b ((mem_sort_iff busy b).mp hb))

theorem free_segments_cover (a z : Int) (busy : List (Int × Int))
    (hwf : ∀ b ∈ busy, b.1 ≤ b.2) :
    ∀ t : Int, (∃ s ∈ free_segments a z busy, s.1 ≤ t ∧ t < s.2) ↔
      (a ≤ t ∧ t < z ∧ ∀ b ∈ busy, ¬ (b.1 ≤ t ∧ t < b.2)) := by
  intro t
  have := sweep_cover z (List.insertionSort (fun a b => a.1 ≤ b.1) busy) a
    (fun b hb => hwf b ((mem_sort_iff busy b).mp hb))
    (List.sorted_insertionSort _ busy) t
  rw [free_segments, this]
  constructor
  · rintro ⟨h1, h2, h3⟩
    exact ⟨h1, h2, fun b hb => h3 b ((mem_sort_iff busy b).mpr hb)⟩
  · rintro ⟨h1, h2, h3⟩
    exact ⟨h1, h2, fun b hb => h3 b ((mem_sort_iff busy b).mp hb)⟩

theorem find_slot_spec (dur : Int) (hd : 0 ≤ dur) (seg slot : Int × Int)
    (h : find_slot dur seg = some slot) :
    seg.1 ≤ slot.1 ∧ slot.2 = slot.1 + dur ∧ slot.2 + BUFFER_MIN ≤ seg.2 := by
  have hBUF : BUFFER_MIN = 10 := rfl
  simp only [find_slot] at h
  split_ifs at h with h1 h2 h3 h4 h5 h6
  all_goals injection h with h
  all_goals subst h
  all_goals exact ⟨by omega, by omega, by omega⟩

theorem guard_cursor_ge (cursor dml dur : Int) : cursor ≤ guard_cursor cursor dml dur := by
  unfold guard_cursor
  split_ifs with h
  · omega
  · omega

theorem guard_cursor_noon (cursor dml dur : Int) (h1 : dml ≤ 0) (h2 : 45 ≤ dur) :
    noon ≤ guard_cursor cursor dml dur := by
  unfold guard_cursor
  split_ifs with h
  · omega
  · push_neg at h
    have := h h2
    omega

theorem blocks_busy_append (l1 l2 : List Block) :
    blocks_busy (l1 ++ l2) = blocks_busy l1 ++ blocks_busy l2 := by
  simp [blocks_busy]

theorem mem_blocks_busy_left (a : Block) (l : List Block) (ha : a ∈ l) :
    (a.start, a.«end») ∈ blocks_busy l :=
  List.mem_flatMap.mpr ⟨a, ha, by simp⟩

theorem mem_blocks_busy_right (a : Block) (l : List Block) (ha : a ∈ l) :
    (a.«end», a.«end» + BUFFER_MIN) ∈ blocks_busy l :=
  List.mem_flatMap.mpr ⟨a, ha, by simp⟩

theorem place_one_inv (f : UpsertEff) (busy : List (Int × Int)) (c0 : Int)
    (st : PlanState) (mit : Mit) (hm : 10 ≤ mit.minutes)
    (hpos : 0 < st.blocks_left) (h : Inv busy c0 st) :
    Inv busy c0 (place_one f busy st mit) := by
  have hBUF : BUFFER_MIN = 10 := rfl
  have hcur2 : st.cursor ≤ guard_cursor st.cursor st.deep_morning_left mit.minutes :=
    guard_cursor_ge _ _ _
  simp only [place_one]
  cases hX : (free_segments (guard_cursor st.cursor st.deep_morning_left mit.minutes)
      WORKDAY_END (busy ++ st.created_busy)).findSome? (find_slot mit.minutes) with
  | none =>
    exact ⟨h.busy_eq, h.avoid, h.pair, h.bounds,
      le_trans h.cursor_ge hcur2, h.blocks_count, h.deep_count⟩
  | some slot =>
    obtain ⟨seg, hseg_mem, hseg_slot⟩ := List.exists_of_findSome?_eq_some hX
    have hspec := find_slot_spec mit.minutes (by omega) seg slot hseg_slot
    have hsub := free_segments_subset _ _ _ seg hseg_mem
    have havoid := free_segments_avoid _ _ _ seg hseg_mem
    refine ⟨?_, ?_, ?_, ?_, ?_, ?_, ?_⟩
    · -- busy_eq
      show st.created_busy ++ [(slot.1, slot.2), (slot.2, slot.2 + BUFFER_MIN)] =
        blocks_busy (st.created ++ [⟨st.next_event_id, mit.text, slot.1, slot.2⟩])
      rw [h.busy_eq, blocks_busy_append]
      rfl
    · -- avoid
      intro blk hblk b hb
      rw [List.mem_append] at hblk
      rcases hblk with hblk | hblk
      · exact h.avoid blk hblk b hb
      · rw [List.mem_singleton] at hblk
        subst hblk
        exact not_overlaps_of_subset (havoid b (List.mem_append_left _ hb))
          hspec.1 hspec.2.2
    · -- pairwise on extended intervals
      rw [List.pairwise_append]
      refine ⟨h.pair, by simp, ?_⟩
      intro a ha b hb
      rw [List.mem_singleton] at hb
      subst hb
      have hmem1 : (a.start, a.«end») ∈ busy ++ st.created_busy :=
        List.mem_append_right _ (h.busy_eq ▸ mem_blocks_busy_left a st.created ha)
      have hmem2 : (a.«end», a.«end» + BUFFER_MIN) ∈ busy ++ st.created_busy :=
        List.mem_append_right _ (h.busy_eq ▸ mem_blocks_busy_right a st.created ha)
      have hA : ¬ overlaps (slot.1, slot.2 + BUFFER_MIN) (a.start, a.«end») :=
        not_overlaps_of_subset (havoid _ hmem1) hspec.1 hspec.2.2
      have hB : ¬ overlaps (slot.1, slot.2 + BUFFER_MIN) (a.«end», a.«end» + BUFFER_MIN) :=
        not_overlaps_of_subset (havoid _ hmem2) hspec.1 hspec.2.2
      have hAB := not_overlaps_union hA hB
      exact fun hov => hAB ((overlaps_comm (blockExt a) (slot.1, slot.2 + BUFFER_MIN)).mp hov)
    · -- window bounds
      intro blk hblk
      rw [List.mem_append] at hblk
      rcases hblk with hblk | hblk
      · exact h.bounds blk hblk
      · rw [List.mem_singleton] at hblk
        subst hblk
        have h1 := h.cursor_ge
        have h2 := hsub.1
        have h3 := hsub.2
        have h4 := hspec.1
        have h5 := hspec.2.2
        constructor
        · simp only
          omega
        · simp only
          omega
    · -- cursor lower bound
      have h1 := h.cursor_ge
      have h2 := hsub.1
      have h3 := hspec.1
      have h4 := hspec.2.1
      show c0 ≤ slot.2 + BUFFER_MIN
      omega
    · -- block quota accounting
      have hc := h.blocks_count
      constructor
      · show 0 ≤ st.blocks_left - 1
        omega
      · show ((st.created ++ [(⟨st.next_event_id, mit.text, slot.1, slot.2⟩ : Block)]).length : Int) =
          MAX_BLOCKS - (st.blocks_left - 1)
        rw [List.length_append, List.length_singleton]
        push_cast
        omega
    · -- morning deep-work accounting
      have hc := h.deep_count
      have hdm_iff : deep_morning (⟨st.next_event_id, mit.text, slot.1, slot.2⟩ : Block) = true ↔
          (45 ≤ mit.minutes ∧ slot.1 < noon) := by
        have h4 := hspec.2.1
        simp only [deep_morning, Bool.and_eq_true, decide_eq_true_eq]
        omega
      have hcount : (st.created ++ [(⟨st.next_event_id, mit.text, slot.1, slot.2⟩ : Block)]).countP
          deep_morning = st.created.countP deep_morning +
          (if 45 ≤ mit.minutes ∧ slot.1 < noon then 1 else 0) := by
        rw [List.countP_append]
        congr 1
        rw [List.countP_cons]
        simp only [List.countP_nil, Nat.zero_add]
        by_cases hd2 : 45 ≤ mit.minutes ∧ slot.1 < noon
        · rw [if_pos hd2, if_pos (hdm_iff.mpr hd2)]
        · rw [if_neg hd2, if_neg (fun hh => hd2 (hdm_iff.mp hh))]
      by_cases hdc : 45 ≤ mit.minutes ∧ slot.1 < noon
      · have hpos2 : 0 < st.deep_morning_left := by
          by_contra hek
          push_neg at hek
          have hnoon := guard_cursor_noon st.cursor st.deep_morning_left mit.minutes hek hdc.1
          have h2 := hsub.1
          have h3 := hspec.1
          omega
        constructor
        · show 0 ≤ st.deep_morning_left - (if 45 ≤ mit.minutes ∧ slot.1 < noon then 1 else 0)
          rw [if_pos hdc]
          omega
        · show ((st.created ++ [(⟨st.next_event_id, mit.text, slot.1, slot.2⟩ : Block)]).countP
              deep_morning : Int) = MAX_DEEP_MORNING -
              (st.deep_morning_left - (if 45 ≤ mit.minutes ∧ slot.1 < noon then 1 else 0))
          rw [hcount, if_pos hdc, if_pos hdc]
          push_cast
          omega
      · constructor
        · show 0 ≤ st.deep_morning_left - (if 45 ≤ mit.minutes ∧ slot.1 < noon then 1 else 0)
          rw [if_neg hdc]
          omega
        · show ((st.created ++ [(⟨st.next_event_id, mit.text, slot.1, slot.2⟩ : Block)]).countP
              deep_morning : Int) = MAX_DEEP_MORNING -
              (st.deep_morning_left - (if 45 ≤ mit.minutes ∧ slot.1 < noon then 1 else 0))
          rw [hcount, if_neg hdc, if_neg hdc]
          push_cast
          omega

theorem place_all_inv (f : UpsertEff) (busy : List (Int × Int)) (c0 : Int) :
    ∀ (mits : List Mit) (st : PlanState), (∀ m ∈ mits, 10 ≤ m.minutes) →
      Inv busy c0 st → Inv busy c0 (place_all f busy st mits) := by
  intro mits
  induction mits with
  | nil => intro st _ h; exact h
  | cons mit rest ih =>
    intro st hm h
    simp only [place_all]
    split
    · exact h
    · next hbl =>
      exact ih (place_one f busy st mit)
        (fun m hmem => hm m (List.mem_cons_of_mem _ hmem))
        (place_one_inv f busy c0 st mit (hm mit (List.mem_cons_self _ _)) (by omega) h)

theorem init_inv (busy : List (Int × Int)) (now : Int) (store0 : StoreState) :
    Inv busy (max now WORKDAY_START) (init_state now store0) := by
  refine ⟨rfl, by simp [init_state], by simp [init_state], by simp [init_state],
    le_refl _, ?_, ?_⟩
  · constructor
    · show (0 : Int) ≤ MAX_BLOCKS
      decide
    · show ((List.length [] : Nat) : Int) = MAX_BLOCKS - MAX_BLOCKS
      simp
  · constructor
    · show (0 : Int) ≤ MAX_DEEP_MORNING
      decide
    · show ((List.countP deep_morning [] : Nat) : Int) = MAX_DEEP_MORNING - MAX_DEEP_MORNING
      simp

theorem normalize_minutes (mits : List RawMit) :
    ∀ m ∈ normalize mits, 10 ≤ m.minutes ∧ m.minutes ≤ 120 := by
  intro m hm
  unfold normalize at hm
  rw [List.mem_filterMap] at hm
  obtain ⟨r, _, he⟩ := hm
  simp only at he
  split_ifs at he
  rw [Option.some_inj] at he
  subst he
  simp only
  omega

theorem triage_mem (busy : List (Int × Int)) (st : PlanState) :
    ∀ blk ∈ (triage busy st).created, blk ∈ st.created ∨
      (st.cursor ≤ blk.start ∧ blk.«end» ≤ WORKDAY_END ∧ blk.«end» = blk.start + 30 ∧
       blk.title = "Triage (30m)" ∧
       ∀ b ∈ busy, ¬ overlaps (blk.start, blk.«end») b) := by
  intro blk hblk
  simp only [triage] at hblk
  cases hF : (free_segments st.cursor WORKDAY_END (busy ++ st.created_busy)).find?
      (fun s => decide (30 ≤ s.2 - s.1)) with
  | none =>
    rw [hF] at hblk
    exact Or.inl hblk
  | some seg =>
    rw [hF] at hblk
    rw [List.mem_append] at hblk
    rcases hblk with hblk | hblk
    · exact Or.inl hblk
    · rw [List.mem_singleton] at hblk
      subst hblk
      have hlen : (30 : Int) ≤ seg.2 - seg.1 := by
        have := List.find?_some hF
        simpa using this
      have hmem := List.mem_of_find?_eq_some hF
      have hsub := free_segments_subset _ _ _ seg hmem
      have havoid := free_segments_avoid _ _ _ seg hmem
      refine Or.inr ⟨hsub.1, by simp only; omega, by simp only, rfl, ?_⟩
      intro b hb
      exact not_overlaps_of_subset (havoid b (List.mem_append_left _ hb))
        (le_refl _) (by simp only; omega)

theorem triage_created_empty (busy : List (Int × Int)) (st : PlanState)
    (hempty : st.created = []) :
    (triage busy st).created = [] ∨
      ∃ blk, (triage busy st).created = [blk] := by
  simp only [triage]
  cases hF : (free_segments st.cursor WORKDAY_END (busy ++ st.created_busy)).find?
      (fun s => decide (30 ≤ s.2 - s.1)) with
  | none => exact Or.inl hempty
  | some seg =>
    right
    refine ⟨⟨st.next_event_id, "Triage (30m)", seg.1, seg.1 + 30⟩, ?_⟩
    show st.created ++ [⟨st.next_event_id, "Triage (30m)", seg.1, seg.1 + 30⟩] = _
    rw [hempty]
    rfl

/-- Case analysis of one whole `schedule_blocks` run: either no task survives
normalization and the state is returned untouched, or the placement loop runs
(establishing the run invariant) and the triage fallback fires exactly when the
loop created nothing. -/
theorem schedule_cases (f : UpsertEff) (mits : List RawMit)
    (cal_busy : List (Int × Int)) (now : Int) (store0 : StoreState) :
    (normalize mits = [] ∧ schedule_blocks f mits cal_busy now store0 = init_state now store0) ∨
    (normalize mits ≠ [] ∧
      Inv (full_busy cal_busy) (max now WORKDAY_START)
        (place_all f (full_busy cal_busy) (init_state now store0) (normalize mits)) ∧
      ((place_all f (full_busy cal_busy) (init_state now store0) (normalize mits)).created ≠ [] ∧
        schedule_blocks f mits cal_busy now store0 =
          place_all f (full_busy cal_busy) (init_state now store0) (normalize mits) ∨
       (place_all f (full_busy cal_busy) (init_state now store0) (normalize mits)).created = [] ∧
        schedule_blocks f mits cal_busy now store0 =
          triage (full_busy cal_busy)
            (place_all f (full_busy cal_busy) (init_state now store0) (normalize mits)))) := by
  by_cases hn : normalize mits = []
  · left
    refine ⟨hn, ?_⟩
    simp only [schedule_blocks, hn, if_pos]
  · right
    have hinv := place_all_inv f (full_busy cal_busy) (max now WORKDAY_START)
      (normalize mits) (init_state now store0)
      (fun m hm => (normalize_minutes mits m hm).1)
      (init_inv (full_busy cal_busy) now store0)
    refine ⟨hn, hinv, ?_⟩
    by_cases he : (place_all f (full_busy cal_busy) (init_state now store0)
        (normalize mits)).created = []
    · right
      refine ⟨he, ?_⟩
      simp only [schedule_blocks, hn, if_neg, he, if_pos, if_false]
    · left
      refine ⟨he, ?_⟩
      simp only [schedule_blocks, if_neg hn, if_neg he]

theorem place_one_same (f g : UpsertEff) (busy : List (Int × Int))
    (st st2 : PlanState) (mit : Mit) (h : same_out st st2) :
    same_out (place_one f busy st mit) (place_one g busy st2 mit) := by
  obtain ⟨h1, h2, h3, h4, h5, h6⟩ := h
  simp only [place_one]
  rw [h1, h2, h3, h4, h5, h6]
  cases hX : (free_segments (guard_cursor st2.cursor st2.deep_morning_left mit.minutes)
      WORKDAY_END (busy ++ st2.created_busy)).findSome? (find_slot mit.minutes) with
  | none => exact ⟨rfl, rfl, rfl, rfl, rfl, rfl⟩
  | some slot => exact ⟨rfl, rfl, rfl, rfl, rfl, rfl⟩

theorem place_all_same (f g : UpsertEff) (busy : List (Int × Int)) :
    ∀ (mits : List Mit) (st st2 : PlanState), same_out st st2 →
      same_out (place_all f busy st mits) (place_all g busy st2 mits) := by
  intro mits
  induction mits with
  | nil => intro st st2 h; exact h
  | cons mit rest ih =>
    intro st st2 h
    simp only [place_all]
    rw [h.2.2.1]
    by_cases hbl : st2.blocks_left ≤ 0
    · rw [if_pos hbl, if_pos hbl]
      exact h
    · rw [if_neg hbl, if_neg hbl]
      exact ih _ _ (place_one_same f g busy st st2 mit h)

theorem triage_same (busy : List (Int × Int)) (st st2 : PlanState)
    (h : same_out st st2) : same_out (triage busy st) (triage busy st2) := by
  obtain ⟨h1, h2, h3, h4, h5, h6⟩ := h
  simp only [triage]
  rw [h1, h2, h3, h4, h5, h6]
  cases hF : (free_segments st2.cursor WORKDAY_END (busy ++ st2.created_busy)).find?
      (fun s => decide (30 ≤ s.2 - s.1)) with
  | none => exact ⟨h1, h2, h3, h4, h5, h6⟩
  | some seg => exact ⟨rfl, rfl, rfl, rfl, rfl, rfl⟩

theorem schedule_blocks_same (f g : UpsertEff) (mits : List RawMit)
    (cal_busy : List (Int × Int)) (now : Int) (store0 store02 : StoreState) :
    same_out (schedule_blocks f mits cal_busy now store0)
      (schedule_blocks g mits cal_busy now store02) := by
  simp only [schedule_blocks]
  by_cases hn : normalize mits = []
  · rw [if_pos hn, if_pos hn]
    exact ⟨rfl, rfl, rfl, rfl, rfl, rfl⟩
  · rw [if_neg hn, if_neg hn]
    have hsame := place_all_same f g (full_busy cal_busy) (normalize mits)
      (init_state now store0) (init_state now store02) ⟨rfl, rfl, rfl, rfl, rfl, rfl⟩
    rw [hsame.1]
    by_cases he : (place_all g (full_busy cal_busy) (init_state now store02)
        (normalize mits)).created = []
    · rw [if_pos he, if_pos he]
      exact triage_same _ _ _ hsame
    · rw [if_neg he, if_neg he]
      exact hsame

theorem not_overlaps_pointwise {a b : Int × Int} (h : ¬ overlaps a b) :
    ∀ t : Int, ¬ (a.1 ≤ t ∧ t < a.2 ∧ b.1 ≤ t ∧ t < b.2) :=
  fun t ht => h ((overlaps_iff a b).mpr ⟨t, ⟨ht.1, ht.2.1⟩, ht.2.2.1, ht.2.2.2⟩)

theorem chain_to_pairwise : ∀ l : List (Int × Int),
    List.Chain' (fun a b : Int × Int => a.2 ≤ b.1) l → (∀ s ∈ l, s.1 < s.2) →
    List.Pairwise (fun a b : Int × Int => a.2 ≤ b.1) l := by
  intro l
  induction l with
  | nil => simp
  | cons a rest ih =>
    intro hc hne
    rw [List.chain'_cons'] at hc
    have hp := ih hc.2 (fun s hs => hne s (List.mem_cons_of_mem _ hs))
    rw [List.pairwise_cons]
    refine ⟨?_, hp⟩
    intro b hb
    cases rest with
    | nil => simp at hb
    | cons hd tl =>
      have h1 : a.2 ≤ hd.1 := hc.1 hd rfl
      rw [List.mem_cons] at hb
      rcases hb with hb | hb
      · subst hb; exact h1
      · have h2 := (List.pairwise_cons.mp hp).1 b hb
        have h3 := hne hd (by simp)
        omega

/-! ## Claim theorems -/

/-- C1 (counterexample): as stated the claim fails: with the single task
("Write", 35 minutes), the external busy interval 10:00-19:00 and
`now = 9:25`, the only free segment before the busy span is 35 minutes long,
too short for the task (which needs 45 minutes including buffer), so the run
degrades to a triage block 9:25-9:55; that block together with its notional
trailing 10-minute buffer (9:55-10:05) overlaps the externally-supplied busy
interval starting at 10:00. -/
theorem C1_counterexample :
    (schedule_blocks store_ok [⟨"Write", some 35, none, none⟩]
        [(10 * 60, 19 * 60)] (9 * 60 + 25) (fun _ => none)).created =
      [⟨0, "Triage (30m)", 9 * 60 + 25, 9 * 60 + 55⟩] ∧
    overlaps (blockExt ⟨0, "Triage (30m)", 9 * 60 + 25, 9 * 60 + 55⟩)
      (10 * 60, 19 * 60) := by
  constructor
  · rfl
  · decide

/-- C1 (amended): in every run of `schedule_blocks`, the created blocks
extended by their trailing `BUFFER_MIN`-minute buffers are pairwise
non-overlapping, every created block's interval `[start, end)` avoids every
externally-supplied busy interval and the lunch interval, and every block
created by the placement engine (as opposed to the triage fallback) avoids the
external busy intervals even together with its trailing buffer. Only a triage
block's trailing buffer may touch external busy time. -/
theorem C1_amended (f : UpsertEff) (mits : List RawMit)
    (cal_busy : List (Int × Int)) (now : Int) (store0 : StoreState) :
    List.Pairwise (fun a b => ¬ overlaps (blockExt a) (blockExt b))
      (schedule_blocks f mits cal_busy now store0).created ∧
    (∀ blk ∈ (schedule_blocks f mits cal_busy now store0).created,
      ∀ b ∈ cal_busy, ¬ overlaps (blk.start, blk.«end») b) ∧
    (∀ blk ∈ (schedule_blocks f mits cal_busy now store0).created,
      ∀ t : Int, ¬ (blk.start ≤ t ∧ t < blk.«end» ∧ lunch_start ≤ t ∧ t < lunch_end)) ∧
    (∀ blk ∈ (place_all f (full_busy cal_busy) (init_state now store0)
        (normalize mits)).created,
      ∀ b ∈ cal_busy, ¬ overlaps (blockExt blk) b) := by
  have hBUF : BUFFER_MIN = 10 := rfl
  have hinv := place_all_inv f (full_busy cal_busy) (max now WORKDAY_START)
    (normalize mits) (init_state now store0)
    (fun m hm => (normalize_minutes mits m hm).1)
    (init_inv (full_busy cal_busy) now store0)
  have hlunch : ((lunch_start, lunch_end) : Int × Int) ∈ full_busy cal_busy := by
    unfold full_busy
    exact List.mem_append_right _ (by simp)
  have hengine_iv : ∀ blk ∈ (place_all f (full_busy cal_busy) (init_state now store0)
      (normalize mits)).created, ∀ b ∈ full_busy cal_busy,
      ¬ overlaps (blk.start, blk.«end») b := by
    intro blk hblk b hb
    exact not_overlaps_of_subset (hinv.avoid blk hblk b hb) (le_refl _)
      (by show blk.«end» ≤ blk.«end» + BUFFER_MIN; omega)
  rcases schedule_cases f mits cal_busy now store0 with ⟨hn, heq⟩ | ⟨hn, _, hcase⟩
  · rw [heq]
    refine ⟨by simp [init_state], by simp [init_state], by simp [init_state], ?_⟩
    intro blk hblk
    rw [show place_all f (full_busy cal_busy) (init_state now store0) (normalize mits) =
      init_state now store0 from by rw [hn]; rfl] at hblk
    simp [init_state] at hblk
  · rcases hcase with ⟨hne, heq⟩ | ⟨he, heq⟩
    · rw [heq]
      refine ⟨hinv.pair, ?_, ?_, ?_⟩
      · intro blk hblk b hb
        exact hengine_iv blk hblk b (List.mem_append_left _ hb)
      · intro blk hblk t
        exact not_overlaps_pointwise (hengine_iv blk hblk _ hlunch) t
      · intro blk hblk b hb
        exact hinv.avoid blk hblk b (List.mem_append_left _ hb)
    · rw [heq]
      have htm := triage_mem (full_busy cal_busy)
        (place_all f (full_busy cal_busy) (init_state now store0) (normalize mits))
      refine ⟨?_, ?_, ?_, ?_⟩
      · rcases triage_created_empty (full_busy cal_busy) _ he with h0 | ⟨blk, h0⟩
        · rw [h0]; simp
        · rw [h0]; simp
      · intro blk hblk b hb
        rcases htm blk hblk with hmem | hprops
        · exact hengine_iv blk hmem b (List.mem_append_left _ hb)
        · exact hprops.2.2.2.2 b (List.mem_append_left _ hb)
      · intro blk hblk t
        rcases htm blk hblk with hmem | hprops
        · exact not_overlaps_pointwise (hengine_iv blk hmem _ hlunch) t
        · exact not_overlaps_pointwise (hprops.2.2.2.2 _ hlunch) t
      · intro blk hblk b hb
        exact hinv.avoid blk hblk b (List.mem_append_left _ hb)

/-- C2 (counterexample): with zero tasks, an empty calendar and `now = 9:00`
there are far more than 30 free minutes in the workday, yet `schedule_blocks`
returns an empty list: the early `if not normalized: return "[]"` fires before
the triage fallback is ever reached, so no triage block is created. -/
theorem C2_counterexample :
    (schedule_blocks store_ok [] [] (9 * 60) (fun _ => none)).created = [] ∧
    ((free_segments (max (9 * 60) WORKDAY_START) WORKDAY_END (full_busy [])).any
      (fun s => decide (30 ≤ s.2 - s.1)) = true) := by
  constructor
  · rfl
  · decide

/-- C2 (amended): if zero tasks are supplied, or every supplied task has an
empty title after stripping (so that normalization yields no task),
`schedule_blocks` returns an empty list immediately and without error,
regardless of how much free time exists; the triage fallback is not invoked
in this case (it can only run when at least one normalized task exists but
none could be placed). -/
theorem C2_amended (f : UpsertEff) (mits : List RawMit)
    (cal_busy : List (Int × Int)) (now : Int) (store0 : StoreState)
    (h : normalize mits = []) :
    (schedule_blocks f mits cal_busy now store0).created = [] := by
  simp only [schedule_blocks, h, if_pos]
  rfl

theorem C2_amended_witness :
    (schedule_blocks store_ok [⟨"  ", some 60, none, none⟩] [(300, 301)] 500
      (fun _ => none)).created = [] :=
  C2_amended store_ok [⟨"  ", some 60, none, none⟩] [(300, 301)] 500 (fun _ => none) rfl

/-- C3: every run of `schedule_blocks` creates at most `MAX_BLOCKS = 5` blocks
in total (a triage block can only exist when it is the sole block), and at
most `MAX_DEEP_MORNING = 3` blocks of duration at least 45 minutes starting
before 12:00, for every task list, busy set and current time. -/
theorem C3_quota_bounds (f : UpsertEff) (mits : List RawMit)
    (cal_busy : List (Int × Int)) (now : Int) (store0 : StoreState) :
    (schedule_blocks f mits cal_busy now store0).created.length ≤ 5 ∧
    (schedule_blocks f mits cal_busy now store0).created.countP deep_morning ≤ 3 := by
  rcases schedule_cases f mits cal_busy now store0 with ⟨hn, heq⟩ | ⟨hn, hinv, hcase⟩
  · rw [heq]
    constructor <;> simp [init_state]
  · rcases hcase with ⟨hne, heq⟩ | ⟨he, heq⟩
    · rw [heq]
      have h1 := hinv.blocks_count
      have h2 := hinv.deep_count
      have hMB : MAX_BLOCKS = 5 := rfl
      have hMD : MAX_DEEP_MORNING = 3 := rfl
      constructor
      · omega
      · omega
    · rw [heq]
      rcases triage_created_empty (full_busy cal_busy) _ he with h0 | ⟨blk, h0⟩
      · rw [h0]
        constructor <;> simp
      · rw [h0]
        constructor
        · simp
        · calc [blk].countP deep_morning ≤ [blk].length := List.countP_le_length _
            _ ≤ 3 := by simp

/-- C4: every block created by a run of `schedule_blocks` (including a triage
block) starts at or after `max(now, workdayStart)` — in particular at or after
`workdayStart` — and ends at or before `workdayEnd`. -/
theorem C4_window_containment (f : UpsertEff) (mits : List RawMit)
    (cal_busy : List (Int × Int)) (now : Int) (store0 : StoreState) :
    ∀ blk ∈ (schedule_blocks f mits cal_busy now store0).created,
      max now WORKDAY_START ≤ blk.start ∧ WORKDAY_START ≤ blk.start ∧
      blk.«end» ≤ WORKDAY_END := by
  have hBUF : BUFFER_MIN = 10 := rfl
  intro blk hblk
  rcases schedule_cases f mits cal_busy now store0 with ⟨hn, heq⟩ | ⟨hn, hinv, hcase⟩
  · rw [heq] at hblk
    simp [init_state] at hblk
  · rcases hcase with ⟨hne, heq⟩ | ⟨he, heq⟩
    · rw [heq] at hblk
      have h1 := hinv.bounds blk hblk
      refine ⟨h1.1, ?_, by omega⟩
      have h2 := le_max_right now WORKDAY_START
      omega
    · rw [heq] at hblk
      rcases triage_mem (full_busy cal_busy) _ blk hblk with hmem | hprops
      · have h1 := hinv.bounds blk hmem
        refine ⟨h1.1, ?_, by omega⟩
        have h2 := le_max_right now WORKDAY_START
        omega
      · have hcur := hinv.cursor_ge
        have h2 := le_max_right now WORKDAY_START
        refine ⟨by omega, by omega, hprops.2.1⟩

/-- C5: for every window with `windowStart < windowEnd` and every finite list
of busy intervals (arbitrary overlap and position, each with positive
extent), `free_segments` returns a finite ascending list of pairwise-disjoint
non-empty intervals whose union is exactly the window minus the union of the
busy intervals, and it is a pure function of its inputs. -/
theorem C5_free_segments_spec (ws we : Int) (busy : List (Int × Int))
    (hwin : ws < we) (hwf : ∀ b ∈ busy, b.1 < b.2) :
    ascending (free_segments ws we busy) ∧
    List.Pairwise (fun s1 s2 => ¬ overlaps s1 s2) (free_segments ws we busy) ∧
    (∀ s ∈ free_segments ws we busy, s.1 < s.2) ∧
    (∀ t : Int, (∃ s ∈ free_segments ws we busy, s.1 ≤ t ∧ t < s.2) ↔
      (ws ≤ t ∧ t < we ∧ ∀ b ∈ busy, ¬ (b.1 ≤ t ∧ t < b.2))) ∧
    free_segments ws we busy = free_segments ws we busy := by
  have hle : ∀ b ∈ busy, b.1 ≤ b.2 := fun b hb => le_of_lt (hwf b hb)
  have hchain := free_segments_chain ws we busy hle
  have hne := free_segments_nonempty ws we busy hwin
  refine ⟨hchain, ?_, hne, ?_, rfl⟩
  · exact (chain_to_pairwise _ hchain hne).imp
      (fun h => by unfold overlaps; omega)
  · exact free_segments_cover ws we busy hle

theorem C5_witness :
    ascending (free_segments 0 100 [((10 : Int), (20 : Int)), ((50 : Int), (60 : Int))]) :=
  (C5_free_segments_spec 0 100 [(10, 20), (50, 60)] (by decide) (by decide)).1

/-- C6: Scenario B of the spec: workday ending 19:00, lunch 13:00-14:00,
10-minute buffer, no external busy time, single task ("Review", 90 minutes) at
`now = 12:10` — `schedule_blocks` produces exactly one block 14:00-15:30,
because the before-lunch remainder 12:10-13:00 holds only 50 of the 100
required minutes and placement falls to the first segment after lunch. -/
theorem C6_scenario_B :
    (schedule_blocks store_ok [⟨"Review", some 90, none, none⟩] [] (12 * 60 + 10)
      (fun _ => none)).created = [⟨0, "Review", 14 * 60, 15 * 60 + 30⟩] := by
  rfl

/-- C8 (counterexample): as stated the claim fails for the empty-string id:
after `upsert_mapping(t, notion_block_id="a")`, a second call
`upsert_mapping(t, calendar_event_id="")` stores `None` (the falsy supplied
value is replaced by the previous `None`), not `""`. -/
theorem C8_counterexample :
    get_mapping (upsert_mapping (upsert_mapping (fun _ => none) "t" (some "a") none)
      "t" none (some "")) "t" = ⟨some "a", none⟩ ∧
    (⟨some "a", none⟩ : MappingRow) ≠ ⟨some "a", some ""⟩ := by
  constructor
  · rfl
  · decide

/-- C8 (amended): for every thread with no existing row and every non-empty
`b`, calling `upsert_mapping(t, notion_block_id=a)` then
`upsert_mapping(t, calendar_event_id=b)` stores `{notion_block_id: a,
calendar_event_id: b}`: the second call updates only the supplied truthy field
and keeps the other. -/
theorem C8_amended (st : StoreState) (tid a b : String)
    (hrow : st tid = none) (hb : b ≠ "") :
    get_mapping (upsert_mapping (upsert_mapping st tid (some a) none) tid
      none (some b)) tid = ⟨some a, some b⟩ := by
  unfold get_mapping upsert_mapping pyOr truthy
  simp [hrow, hb]

theorem C8_amended_witness :
    get_mapping (upsert_mapping (upsert_mapping (fun _ => none) "t7" (some "nb1") none)
      "t7" none (some "ev9")) "t7" = ⟨some "nb1", some "ev9"⟩ :=
  C8_amended (fun _ => none) "t7" "nb1" "ev9" rfl (by decide)

/-- C9: a linkage-store failure never changes the scheduling output: for any
two store effects (one may raise on every call, as `store_fail` does) and any
two initial store states, `schedule_blocks` creates exactly the same blocks;
in particular every block created before or after a failing
`STORE.upsert_mapping` call is still in the returned result. -/
theorem C9_store_failure_harmless (f g : UpsertEff) (mits : List RawMit)
    (cal_busy : List (Int × Int)) (now : Int) (store0 store02 : StoreState) :
    (schedule_blocks f mits cal_busy now store0).created =
      (schedule_blocks g mits cal_busy now store02).created ∧
    (schedule_blocks f mits cal_busy now store0).created =
      (schedule_blocks store_fail mits cal_busy now store0).created :=
  ⟨(schedule_blocks_same f g mits cal_busy now store0 store02).1,
   (schedule_blocks_same f store_fail mits cal_busy now store0 store0).1⟩

theorem C1_amended_witness :
    ¬ overlaps (blockExt ⟨0, "A", 9 * 60, 10 * 60⟩)
      (blockExt ⟨1, "B", 10 * 60 + 10, 10 * 60 + 40⟩) := by
  have h := (C1_amended store_ok
    [⟨"A", some 60, none, none⟩, ⟨"B", some 30, none, none⟩] [] (9 * 60)
    (fun _ => none)).1
  rw [show (schedule_blocks store_ok
      [⟨"A", some 60, none, none⟩, ⟨"B", some 30, none, none⟩] [] (9 * 60)
      (fun _ => none)).created =
    [⟨0, "A", 9 * 60, 10 * 60⟩, ⟨1, "B", 10 * 60 + 10, 10 * 60 + 40⟩] from rfl] at h
  exact (List.pairwise_cons.mp h).1 _ (by simp)

theorem C4_witness :
    max (500 : Int) WORKDAY_START ≤ 500 ∧ WORKDAY_START ≤ (500 : Int) ∧
    (560 : Int) ≤ WORKDAY_END := by
  have h := C4_window_containment store_ok [⟨"Task", some 60, none, none⟩] [] 500
    (fun _ => none)
  have hm : (⟨0, "Task", 500, 560⟩ : Block) ∈ (schedule_blocks store_ok
      [⟨"Task", some 60, none, none⟩] [] 500 (fun _ => none)).created := by
    rw [show (schedule_blocks store_ok [⟨"Task", some 60, none, none⟩] [] 500
      (fun _ => none)).created = [⟨0, "Task", 500, 560⟩] from rfl]
    simp
  exact h _ hm

theorem upsert_keeps_nb (st : StoreState) (tid : String) (nb ce : Option String)
    (h : truthy (get_mapping st tid).notion_block_id = true) :
    truthy (get_mapping (upsert_mapping st tid nb ce) tid).notion_block_id = true := by
  unfold get_mapping upsert_mapping
  cases hrow : st tid with
  | none =>
    unfold get_mapping at h
    rw [hrow] at h
    simp [truthy] at h
  | some row =>
    unfold get_mapping at h
    rw [hrow] at h
    simp only [Option.getD_some] at h
    rw [if_pos rfl]
    show truthy (pyOr nb row.notion_block_id) = true
    unfold pyOr
    split_ifs with ht
    · exact ht
    · exact h

theorem upsert_keeps_ce (st : StoreState) (tid : String) (nb ce : Option String)
    (h : truthy (get_mapping st tid).calendar_event_id = true) :
    truthy (get_mapping (upsert_mapping st tid nb ce) tid).calendar_event_id = true := by
  unfold get_mapping upsert_mapping
  cases hrow : st tid with
  | none =>
    unfold get_mapping at h
    rw [hrow] at h
    simp [truthy] at h
  | some row =>
    unfold get_mapping at h
    rw [hrow] at h
    simp only [Option.getD_some] at h
    rw [if_pos rfl]
    show truthy (pyOr ce row.calendar_event_id) = true
    unfold pyOr
    split_ifs with ht
    · exact ht
    · exact h

theorem apply_calls_keeps_nb (tid : String) :
    ∀ (calls : List (Option String × Option String)) (st : StoreState),
      truthy (get_mapping st tid).notion_block_id = true →
      truthy (get_mapping (apply_calls st tid calls) tid).notion_block_id = true := by
  intro calls
  induction calls with
  | nil => intro st h; exact h
  | cons c rest ih =>
    intro st h
    simp only [apply_calls, List.foldl_cons]
    exact ih (upsert_mapping st tid c.1 c.2) (upsert_keeps_nb st tid c.1 c.2 h)

theorem apply_calls_keeps_ce (tid : String) :
    ∀ (calls : List (Option String × Option String)) (st : StoreState),
      truthy (get_mapping st tid).calendar_event_id = true →
      truthy (get_mapping (apply_calls st tid calls) tid).calendar_event_id = true := by
  intro calls
  induction calls with
  | nil => intro st h; exact h
  | cons c rest ih =>
    intro st h
    simp only [apply_calls, List.foldl_cons]
    exact ih (upsert_mapping st tid c.1 c.2) (upsert_keeps_ce st tid c.1 c.2 h)

/-- C10: stored linkage fields are monotone. Over any sequence of
`upsert_mapping` calls on one `thread_id`, a field holding a truthy (non-empty)
value keeps holding a truthy value; and a single call supplying a falsy value
(`None` or `""`) for a field of an existing row leaves that stored field
unchanged. `set_calendar_event` is covered, being exactly an `upsert_mapping`
with only the calendar field supplied. -/
theorem C10_linkage_monotone (st : StoreState) (tid : String)
    (calls : List (Option String × Option String)) (row : MappingRow)
    (nb ce : Option String) (ev : String) :
    (truthy (get_mapping st tid).notion_block_id = true →
      truthy (get_mapping (apply_calls st tid calls) tid).notion_block_id = true) ∧
    (truthy (get_mapping st tid).calendar_event_id = true →
      truthy (get_mapping (apply_calls st tid calls) tid).calendar_event_id = true) ∧
    (st tid = some row → truthy nb = false →
      (get_mapping (upsert_mapping st tid nb ce) tid).notion_block_id =
        row.notion_block_id) ∧
    (st tid = some row → truthy ce = false →
      (get_mapping (upsert_mapping st tid nb ce) tid).calendar_event_id =
        row.calendar_event_id) ∧
    set_calendar_event st tid ev = upsert_mapping st tid none (some ev) := by
  refine ⟨apply_calls_keeps_nb tid calls st, apply_calls_keeps_ce tid calls st,
    ?_, ?_, rfl⟩
  · intro hrow hnb
    unfold get_mapping upsert_mapping
    rw [if_pos rfl, hrow]
    show pyOr nb row.notion_block_id = row.notion_block_id
    unfold pyOr
    rw [if_neg (by rw [hnb]; exact Bool.false_ne_true)]
  · intro hrow hce
    unfold get_mapping upsert_mapping
    rw [if_pos rfl, hrow]
    show pyOr ce row.calendar_event_id = row.calendar_event_id
    unfold pyOr
    rw [if_neg (by rw [hce]; exact Bool.false_ne_true)]

theorem C10_witness :
    truthy (get_mapping (apply_calls
      (fun k => if k = "t1" then some ⟨some "x", some "e1"⟩ else none) "t1"
      [(some "", none), (none, some ""), (none, none)]) "t1").notion_block_id
      = true := by
  apply (C10_linkage_monotone
    (fun k => if k = "t1" then some ⟨some "x", some "e1"⟩ else none) "t1"
    [(some "", none), (none, some ""), (none, none)]
    ⟨some "x", some "e1"⟩ none none "z").1
  rfl

/-- C7 (counterexample): a model response that cannot be parsed as a JSON
array (here: no bracket pair at all) does not trigger the deterministic
first-N fallback: the tool silently returns the empty array instead. -/
theorem C7_counterexample :
    prioritize_mits (fun _ => none) [⟨"A", none, none⟩, ⟨"B", none, none⟩]
      ("I cannot produce structured output.".data) = [] ∧
    ([] : List CleanedTask) ≠
      fallback_tasks [⟨"A", none, none⟩, ⟨"B", none, none⟩] := by
  constructor
  · rfl
  · decide

/-- C7 (amended): whenever bracket extraction of the response yields the empty
array — in particular whenever the response is unparseable as a JSON array
(`json.loads` raising or no bracket pair present) — `prioritize_mits` returns
the empty list without raising; the deterministic fallback (first 3 input
tasks at 60 minutes) is produced only when an extracted item raises during
cleaning, for example a `minutes` value that `int()` cannot convert, as the
second conjunct shows on a concrete run. -/
theorem C7_amended (loads : List Char → Option PyVal) (tasks : List InTask)
    (raw : List Char) (h : extract_json_array loads raw = PyVal.list []) :
    prioritize_mits loads tasks raw = [] ∧
    prioritize_mits
      (fun _ => some (PyVal.list
        [PyVal.dict [("text", PyVal.str "X"), ("minutes", PyVal.none)]]))
      [⟨"X", none, none⟩] ("[]".data) = fallback_tasks [⟨"X", none, none⟩] := by
  constructor
  · unfold prioritize_mits
    split_ifs with ht
    · rfl
    · rw [h]
      rfl
  · rfl

theorem C7_amended_witness :
    prioritize_mits (fun _ => none) [⟨"C", none, none⟩] ("no brackets here".data) = [] :=
  (C7_amended (fun _ => none) [⟨"C", none, none⟩] ("no brackets here".data) rfl).1

end DailyFocus
